import Mathlib

/-!
Verification of the goulash/lex scanning core (src/lexer.go, src/reader.go).

Shallow embedding conventions:
* Go strings are modelled as `List Char`, one entry per rune; the cursor
  `pos`, the token start `base` and recorded widths are counted in runes
  (Go counts UTF-8 bytes; every claim below is invariant under this
  correspondence, and all concrete inputs used are ASCII, where the two
  coincide).
* A Go `rune` is an `Int` code point; the `EOF` sentinel is `-1` exactly
  as in the source.  `strings.IndexRune(s, r) >= 0` is modelled by
  `containsRune s r`; for `r = -1` Go's `IndexRune` returns `-1` (an
  invalid rune is never found), which the model reflects because code
  points are non-negative.
* The token channel is modelled by returning emitted tokens explicitly;
  receiving from a closed channel yields the zero `Token` value.
* Go code that panics is modelled with `Option` (`none` = panic).
-/

namespace Lex

/-- A Go rune, as its integer code point; `EOF` is `-1`. -/
abbrev Rune := Int

/-- EOF is returned by `Next` upon reaching end-of-file (`const EOF = -1`). -/
def EOF : Rune := -1

/-- `type Type int` of the source, renamed because `Type` is reserved in Lean. -/
abbrev Ty := Int

/-- `TypeError Type = iota` (0). -/
def TypeError : Ty := 0

/-- `TypeEOF` (1), the last reserved type. -/
def TypeEOF : Ty := 1

/-- `type Token struct { Type; Pos int; Value string }`. -/
structure Token where
  type : Ty
  pos : Nat
  value : List Char
  deriving DecidableEq, Repr

/-- The mutable scanner state of `type Lexer struct`; the `tokens` channel is
modelled separately by returning emitted tokens from the operations. -/
structure Lexer where
  name : List Char
  input : List Char
  width : Nat
  base : Nat
  pos : Nat
  lastPos : Nat
  deriving DecidableEq, Repr

/-- `New(name, input)`: fresh lexer with all counters zero. -/
def New (name input : List Char) : Lexer :=
  { name := name, input := input, width := 0, base := 0, pos := 0, lastPos := 0 }

/-- The code point of a character, as a Go rune. -/
def charRune (c : Char) : Rune := (c.toNat : Int)

/-- Models `strings.IndexRune(s, r) >= 0` (membership of rune `r` in set `s`).
For `r = EOF = -1` this is `false` for every `s`, matching Go, where
`IndexRune` returns `-1` on an invalid rune. -/
def containsRune (s : List Char) (r : Rune) : Bool :=
  s.any (fun c => charRune c == r)

/-- `Value()`: the pending text `l.input[l.base:l.pos]`.  (Go panics when
`base > pos`; the model returns the empty slice there.  No theorem below
evaluates `Value` in such a state except where the span is genuinely empty.) -/
def Value (l : Lexer) : List Char := (l.input.take l.pos).drop l.base

/-- `Len()`: `return l.base - l.pos` (a Go `int`, hence `Int` here). -/
def Len (l : Lexer) : Int := (l.base : Int) - (l.pos : Int)

/-- `Next()`: returns the next rune and advances, or returns `EOF` with
`width = 0` when the cursor is at or past the end of the input.
`l.input[l.pos]? = none` holds exactly when `pos >= len(input)`. -/
def Next (l : Lexer) : Rune × Lexer :=
  match l.input[l.pos]? with
  | none => (EOF, { l with width := 0 })
  | some c => (charRune c, { l with width := 1, pos := l.pos + 1 })

/-- `Backup()`: `l.pos -= l.width`.  No check is performed by the source. -/
def Backup (l : Lexer) : Lexer := { l with pos := l.pos - l.width }

/-- `Peek()`: `r := l.Next(); l.Backup(); return r`. -/
def Peek (l : Lexer) : Rune × Lexer :=
  let p := Next l
  (p.1, Backup p.2)

/-- `AcceptBut(invalid)`: consume a rune if it is not in the invalid set. -/
def AcceptBut (l : Lexer) (invalid : List Char) : Bool × Lexer :=
  let p := Next l
  if containsRune invalid p.1 = false then (true, p.2)
  else (false, Backup p.2)

/-- The loop body of `AcceptButRun(invalid)`, with explicit fuel: the Go
loop `for strings.IndexRune(invalid, l.Next()) < 0 { n += l.width }` followed
by `l.Backup(); return n`.  `none` means the loop did not exit within `fuel`
iterations. -/
def AcceptButRunAux (invalid : List Char) : Nat → Lexer → Nat → Option (Nat × Lexer)
  | 0, _, _ => none
  | fuel + 1, l, n =>
      let p := Next l
      if containsRune invalid p.1 = false then
        AcceptButRunAux invalid fuel p.2 (n + p.2.width)
      else
        some (n, Backup p.2)

/-- `AcceptButRun(invalid)` with explicit fuel bound on loop iterations. -/
def AcceptButRun (fuel : Nat) (l : Lexer) (invalid : List Char) : Option (Nat × Lexer) :=
  AcceptButRunAux invalid fuel l 0

/-- `NextToken()` as observed by the consumer: receiving token `t` from the
channel records `l.lastPos = t.Pos`. -/
def NextToken (l : Lexer) (t : Token) : Lexer := { l with lastPos := t.pos }

/-- `LineNumber()`: `1 + strings.Count(l.input[:l.lastPos], "\n")`. -/
def LineNumber (l : Lexer) : Nat :=
  1 + (l.input.take l.lastPos).count '\n'

/-- `strings.LastIndex(s, c)` for a one-character needle: the index of the
last occurrence, or `-1` when absent. -/
def lastIndex : List Char → Char → Int
  | [], _ => -1
  | a :: as, c =>
      let i := lastIndex as c
      if 0 ≤ i then i + 1
      else if a == c then 0 else -1

/-- `ColumnNumber()`: position after the last newline before `lastPos`,
or `1 + len(code)` when no newline precedes it. -/
def ColumnNumber (l : Lexer) : Int :=
  let code := l.input.take l.lastPos
  let i := lastIndex code '\n'
  if 0 ≤ i then (l.lastPos : Int) - i
  else 1 + (code.length : Int)

/-- `type Reader struct { lex *Lexer; buf *Token }`.  The underlying token
stream (the channel fed by the lexing goroutine) is modelled by the list of
tokens it will deliver; the empty list models a closed channel. -/
structure Reader where
  buf : Option Token
  toks : List Token
  deriving DecidableEq, Repr

/-- The zero `Token` value, received from a closed channel. -/
def zeroToken : Token := { type := TypeError, pos := 0, value := [] }

/-- `Reader.Peek()`: fill the one-token buffer from the stream if empty and
return the buffered token without consuming it. -/
def RPeek (r : Reader) : Token × Reader :=
  match r.buf with
  | some t => (t, r)
  | none =>
      match r.toks with
      | t :: ts => (t, { buf := some t, toks := ts })
      | [] => (zeroToken, { buf := some zeroToken, toks := [] })

/-- `Reader.Next()`: return the buffered token (clearing the buffer) if
present, else pull fresh from the stream. -/
def RNext (r : Reader) : Token × Reader :=
  match r.buf with
  | some t => (t, { buf := none, toks := r.toks })
  | none =>
      match r.toks with
      | t :: ts => (t, { buf := none, toks := ts })
      | [] => (zeroToken, r)

/-- `Reader.Backup(t)`: push one token back; `none` models the
`panic("cannot backup more than one token")` when one is already buffered. -/
def RBackup (r : Reader) (t : Token) : Option Reader :=
  match r.buf with
  | some _ => none
  | none => some { buf := some t, toks := r.toks }

/-- The tokens the reader will deliver, buffered one first. -/
def available (r : Reader) : List Token := r.buf.toList ++ r.toks

/-- `Reader.Expect(types...)`: pull one token per expected type, appending
each pulled token; stop at the first type mismatch with `ok = false`. -/
def Expect (r : Reader) : List Ty → List Token × Bool × Reader
  | [] => ([], true, r)
  | t :: ts =>
      let p := RNext r
      if p.1.type ≠ t then ([p.1], false, p.2)
      else
        let res := Expect p.2 ts
        (p.1 :: res.1, res.2.1, res.2.2)

/-- Concrete reader used by the C6 witness: a stream yielding types 2, 3, 9. -/
def readerC6 : Reader :=
  { buf := none,
    toks := [{ type := 2, pos := 0, value := [] },
             { type := 3, pos := 1, value := [] },
             { type := 9, pos := 2, value := [] }] }

/-- The scanner state reached on input "ab" by `Next(); Next(); Backup()`:
cursor 1, recorded width 1. -/
def lexAfterNNB : Lexer := Backup (Next (Next (New [] ['a', 'b'])).2).2

/-- The public cursor operations a state-transition function may perform on
the scanner.  A list of `Op` abstracts one execution trace of a transition
function sequence: the runes returned by `Next` are not recorded, only the
operations that were performed. -/
inductive Op where
  | next : Op
  | backup : Op
  | emit : Ty → Op
  | ignore : Op
  | inc : Nat → Op
  | dec : Nat → Op
  deriving DecidableEq, Repr

/-- One observable output of a trace: a token emitted by `Emit`, or the
span of pending input (`input[base:pos]` at that moment) discarded by
`Ignore`.  Recording the discarded span is instrumentation: `Ignore` itself
only advances `base`. -/
inductive Out where
  | tok : Token → Out
  | skip : List Char → Out
  deriving DecidableEq, Repr

/-- The slice of input covered by an output. -/
def Out.content : Out → List Char
  | Out.tok t => t.value
  | Out.skip s => s

/-- The emitted token of an output, if it is one. -/
def Out.token : Out → Option Token
  | Out.tok t => some t
  | Out.skip _ => none

/-- The ignored span of an output, if it is one. -/
def Out.skipped : Out → Option (List Char)
  | Out.tok _ => none
  | Out.skip s => some s

/-- One public scanner operation, exactly as the source performs it:
`Next` (returned rune discarded), `Backup`, `Emit` (sends
`Token{t, l.base, l.input[l.base:l.pos]}` and sets `base = pos`), `Ignore`
(sets `base = pos`), `Inc(n)`, `Dec(n)`. -/
def step (l : Lexer) : Op → Lexer × List Out
  | Op.next => ((Next l).2, [])
  | Op.backup => (Backup l, [])
  | Op.emit t =>
      ({ l with base := l.pos },
       [Out.tok { type := t, pos := l.base, value := Value l }])
  | Op.ignore => ({ l with base := l.pos }, [Out.skip (Value l)])
  | Op.inc n => ({ l with pos := l.pos + n }, [])
  | Op.dec n => ({ l with pos := l.pos - n }, [])

/-- Run a trace of public operations, collecting the outputs in order. -/
def run (l : Lexer) : List Op → Lexer × List Out
  | [] => (l, [])
  | op :: ops =>
      let p := step l op
      let q := run p.1 ops
      (q.1, p.2 ++ q.2)

/-- The emitted tokens of a trace, in emission order. -/
def tokensOf (outs : List Out) : List Token := outs.filterMap Out.token

/-- The ignored spans of a trace, in order. -/
def skipsOf (outs : List Out) : List (List Char) := outs.filterMap Out.skipped

/-- The weak backup discipline, read off the claim's wording: each `backup`
is matched against some earlier `next` (at most one backup per preceding
next, count-wise), with arbitrary operations in between. -/
def WeakWf : Nat → List Op → Bool
  | _, [] => true
  | k, Op.next :: ops => WeakWf (k + 1) ops
  | k + 1, Op.backup :: ops => WeakWf k ops
  | 0, Op.backup :: _ => false
  | k, Op.emit _ :: ops => WeakWf k ops
  | k, Op.ignore :: ops => WeakWf k ops
  | k, Op.inc _ :: ops => WeakWf k ops
  | k, Op.dec _ :: ops => WeakWf k ops

/-- The strict discipline of the amended claims: only `next`, `backup`,
`emit` and `ignore` occur, and `backup` only immediately after a `next`
(the flag records whether a backup is currently permitted). -/
def Wf (canB : Bool) : List Op → Bool
  | [] => true
  | op :: ops =>
      match op with
      | Op.next => Wf true ops
      | Op.backup => canB && Wf false ops
      | Op.emit _ => Wf false ops
      | Op.ignore => Wf false ops
      | Op.inc _ => false
      | Op.dec _ => false

/-- EOF is never a member of a rune set: code points are non-negative. -/
theorem containsRune_EOF (s : List Char) : containsRune s EOF = false := by
  simp only [containsRune, EOF, List.any_eq_false]
  intro c _
  simp only [charRune, beq_iff_eq]
  intro hc
  have hc2 : (c.toNat : Int) = (-1 : Int) := hc
  omega

/-- C7: `Peek` returns exactly the rune (or the `EOF` sentinel) that `Next`
would return from the same state, and its net effect on the cursor is nil:
the position after `Peek` equals the position before. -/
theorem Peek_eq_next_cursor_unchanged (l : Lexer) :
    (Peek l).1 = (Next l).1 ∧ (Peek l).2.pos = l.pos := by
  cases h : l.input[l.pos]? with
  | none => simp [Peek, Next, Backup, h]
  | some c => simp [Peek, Next, Backup, h]

/-- C9: `Len` returns `base - pos`, the negation of the pending text's
length: whenever `base ≤ pos ≤ len(input)`, `Len = -(length of Value)`,
which is zero or negative. -/
theorem Len_eq_neg_pending_length (l : Lexer)
    (hbp : l.base ≤ l.pos) (hpl : l.pos ≤ l.input.length) :
    Len l = -((Value l).length : Int) ∧ Len l ≤ 0 := by
  have hval : (Value l).length = l.pos - l.base := by
    simp only [Value, List.length_drop, List.length_take]
    omega
  refine ⟨?_, ?_⟩
  · rw [hval]; simp only [Len]; omega
  · simp only [Len]; omega

/-- Witness for C9 at the concrete state after reading one rune of "ab". -/
theorem Len_eq_neg_pending_length_witness :
    (0 ≤ 1 ∧ 1 ≤ (['a', 'b'] : List Char).length) ∧
      (Len { New [] ['a', 'b'] with pos := 1 }
          = -((Value { New [] ['a', 'b'] with pos := 1 }).length : Int) ∧
        Len { New [] ['a', 'b'] with pos := 1 } ≤ 0) :=
  ⟨by decide,
   Len_eq_neg_pending_length { New [] ['a', 'b'] with pos := 1 }
     (by decide) (by decide)⟩

/-- C10: with the cursor at or past the end of the input, `AcceptBut`
returns `true` and leaves the cursor unchanged, for every excluded set:
`Next` yields the `EOF` sentinel, which is never a member of the set. -/
theorem AcceptBut_true_at_eof (l : Lexer) (invalid : List Char)
    (h : l.input.length ≤ l.pos) :
    (AcceptBut l invalid).1 = true ∧ (AcceptBut l invalid).2.pos = l.pos := by
  have hget : l.input[l.pos]? = none := List.getElem?_eq_none h
  simp [AcceptBut, Next, hget, containsRune_EOF]

/-- Witness for C10 on the empty input and excluded set "a". -/
theorem AcceptBut_true_at_eof_witness :
    ([] : List Char).length ≤ 0 ∧
      ((AcceptBut (New [] []) ['a']).1 = true ∧
        (AcceptBut (New [] []) ['a']).2.pos = 0) :=
  ⟨by decide, AcceptBut_true_at_eof (New [] []) ['a'] (by decide)⟩

/-- C8: `Reader.Peek` is idempotent: a second consecutive peek returns the
same token and the very same reader state (so the two peeks pull at most one
token from the stream in total), the token stays buffered, and a subsequent
`Next` still returns it — the peek did not consume it. -/
theorem RPeek_idempotent (r : Reader) :
    (RPeek (RPeek r).2).1 = (RPeek r).1
    ∧ (RPeek (RPeek r).2).2 = (RPeek r).2
    ∧ (RPeek r).2.buf = some (RPeek r).1
    ∧ r.toks.length ≤ (RPeek r).2.toks.length + 1
    ∧ (RNext (RPeek r).2).1 = (RPeek r).1 := by
  cases hb : r.buf with
  | some t => simp [RPeek, RNext, hb]
  | none =>
      cases ht : r.toks with
      | nil => simp [RPeek, RNext, hb, ht]
      | cons t ts => simp [RPeek, RNext, hb, ht]

/-- Pulling from a reader takes the head of `available` and leaves its tail. -/
theorem RNext_avail (r : Reader) (t : Token) (ts : List Token)
    (h : available r = t :: ts) :
    (RNext r).1 = t ∧ available (RNext r).2 = ts := by
  cases hb : r.buf with
  | some b =>
      simp only [available, hb, Option.toList_some, List.cons_append,
        List.singleton_append, List.cons.injEq] at h
      simp [RNext, available, hb, h.1, h.2]
  | none =>
      simp only [available, hb, Option.toList_none, List.nil_append] at h
      simp [RNext, available, hb, h]

/-- C6: when the stream can deliver at least `types.length` tokens, `Expect`
pulls tokens one at a time in order (the result is the corresponding prefix
of `available`), its flag is `true` iff the pulled tokens' types equal the
expected list (in particular all of them were pulled), and on failure the
result is nonempty, no longer than `types`, all but its last token match the
expected types, and the last one mismatches. -/
theorem Expect_reads_until_first_mismatch (r : Reader) (types : List Ty)
    (h : types.length ≤ (available r).length) :
    (Expect r types).1 = (available r).take (Expect r types).1.length
    ∧ ((Expect r types).2.1 = true ↔ (Expect r types).1.map Token.type = types)
    ∧ ((Expect r types).2.1 = false →
        (Expect r types).1 ≠ []
        ∧ (Expect r types).1.length ≤ types.length
        ∧ ((Expect r types).1.map Token.type).take ((Expect r types).1.length - 1)
            = types.take ((Expect r types).1.length - 1)
        ∧ (Expect r types).1.map Token.type ≠ types.take (Expect r types).1.length) := by
  induction types generalizing r with
  | nil =>
      refine ⟨by simp [Expect], by simp [Expect], by simp [Expect]⟩
  | cons t ts ih =>
      cases havail : available r with
      | nil => rw [havail] at h; simp at h
      | cons a rest =>
          obtain ⟨hn1, hn2⟩ := RNext_avail r a rest havail
          rw [havail] at h
          simp only [List.length_cons, Nat.add_le_add_iff_right] at h
          rw [← hn2] at h
          by_cases hmt : a.type = t
          · -- matching head: one more token is pulled and the recursion decides
            have hrec := ih (RNext r).2 h
            have hexp : Expect r (t :: ts)
                = (a :: (Expect (RNext r).2 ts).1,
                   (Expect (RNext r).2 ts).2.1, (Expect (RNext r).2 ts).2.2) := by
              simp only [Expect, hn1, ne_eq, hmt, not_true_eq_false, if_false]
            rw [hexp]
            obtain ⟨ih1, ih2, ih3⟩ := hrec
            refine ⟨?_, ?_, ?_⟩
            · simp only [List.length_cons, List.take_succ_cons,
                List.cons.injEq, true_and]
              rw [hn2] at ih1
              exact ih1
            · simp only [List.map_cons, List.cons.injEq, hmt, true_and]
              exact ih2
            · intro hfail
              obtain ⟨g1, g2, g3, g4⟩ := ih3 hfail
              have hk : ∃ m, (Expect (RNext r).2 ts).1.length = m + 1 := by
                cases hL : (Expect (RNext r).2 ts).1 with
                | nil => exact absurd hL g1
                | cons x xs => exact ⟨xs.length, by simp [hL]⟩
              obtain ⟨m, hm⟩ := hk
              refine ⟨by simp, ?_, ?_, ?_⟩
              · simp only [List.length_cons, hm]
                omega
              · simp only [List.map_cons, List.length_cons, Nat.add_sub_cancel,
                  hm, List.take_succ_cons, List.cons.injEq, hmt, true_and]
                rw [hm] at g3
                simpa using g3
              · simp only [List.map_cons, List.length_cons, hm,
                  List.take_succ_cons, List.cons.injEq]
                intro hc
                rw [hm] at g4
                exact g4 (List.cons.inj hc).2
          · -- mismatching head: exactly this token is pulled, flag false
            have hexp : Expect r (t :: ts)
                = ([a], false, (RNext r).2) := by
              simp only [Expect, hn1, ne_eq, hmt, not_false_eq_true, if_true]
            rw [hexp]
            refine ⟨by simp, ?_, ?_⟩
            · simp only [Bool.false_eq_true, false_iff, List.map_cons,
                List.map_nil]
              intro hc
              exact hmt (List.cons.inj hc).1
            · intro _
              refine ⟨by simp, by simp, by simp, ?_⟩
              simp only [List.map_cons, List.map_nil, List.length_cons,
                List.length_nil, List.take_succ_cons, List.take_zero]
              intro hc
              exact hmt (List.cons.inj hc).1

/-- Witness for C6: expecting types 2, 3, 4 against a stream yielding
2, 3, 9 — three tokens are read and the flag is false. -/
theorem Expect_reads_until_first_mismatch_witness :
    ([2, 3, 4] : List Ty).length ≤ (available readerC6).length
    ∧ ((Expect readerC6 [2, 3, 4]).1
          = (available readerC6).take (Expect readerC6 [2, 3, 4]).1.length
      ∧ ((Expect readerC6 [2, 3, 4]).2.1 = true
          ↔ (Expect readerC6 [2, 3, 4]).1.map Token.type = [2, 3, 4])
      ∧ ((Expect readerC6 [2, 3, 4]).2.1 = false →
          (Expect readerC6 [2, 3, 4]).1 ≠ []
          ∧ (Expect readerC6 [2, 3, 4]).1.length ≤ ([2, 3, 4] : List Ty).length
          ∧ ((Expect readerC6 [2, 3, 4]).1.map Token.type).take
                ((Expect readerC6 [2, 3, 4]).1.length - 1)
              = ([2, 3, 4] : List Ty).take ((Expect readerC6 [2, 3, 4]).1.length - 1)
          ∧ (Expect readerC6 [2, 3, 4]).1.map Token.type
              ≠ ([2, 3, 4] : List Ty).take (Expect readerC6 [2, 3, 4]).1.length)) :=
  ⟨by decide, Expect_reads_until_first_mismatch readerC6 [2, 3, 4] (by decide)⟩

/-- C2 counterexample: a second consecutive `Backup` on the Scanner returns
normally and silently moves the cursor (from 1 to 0) instead of failing. -/
theorem scanner_double_backup_counterexample :
    lexAfterNNB.pos = 1
    ∧ (Backup lexAfterNNB).pos = 0
    ∧ (Backup lexAfterNNB).pos ≠ lexAfterNNB.pos := by decide

/-- C2 amended: the Scanner's `Backup` performs no check — a second
consecutive call returns normally and decrements the cursor by the recorded
width again, silently moving it whenever the width is positive; the fatal
double-backup check exists only on the Reader, whose `Backup` panics when a
token is already buffered. -/
theorem Backup_unchecked_on_scanner_fatal_on_reader :
    (∀ l : Lexer, 0 < l.width → 2 * l.width ≤ l.pos →
        (Backup (Backup l)).pos < (Backup l).pos)
    ∧ (∀ (r : Reader) (t u : Token), r.buf = some u → RBackup r t = none) := by
  refine ⟨?_, ?_⟩
  · intro l hw hp
    simp only [Backup]
    omega
  · intro r t u hb
    simp [RBackup, hb]

/-- Witness for the amended C2 at a concrete scanner state and reader. -/
theorem Backup_unchecked_on_scanner_fatal_on_reader_witness :
    (0 < (1 : Nat) ∧ 2 * 1 ≤ (2 : Nat)
      ∧ (Backup (Backup { New [] ['a', 'b'] with width := 1, pos := 2 })).pos
          < (Backup { New [] ['a', 'b'] with width := 1, pos := 2 }).pos)
    ∧ ((⟨some zeroToken, []⟩ : Reader).buf = some zeroToken
      ∧ RBackup (⟨some zeroToken, []⟩ : Reader) zeroToken = none) :=
  ⟨⟨by decide, by decide,
    Backup_unchecked_on_scanner_fatal_on_reader.1
      { New [] ['a', 'b'] with width := 1, pos := 2 } (by decide) (by decide)⟩,
   ⟨rfl,
    Backup_unchecked_on_scanner_fatal_on_reader.2
      (⟨some zeroToken, []⟩ : Reader) zeroToken zeroToken rfl⟩⟩

/-- With the cursor at or past the end of the input, the `AcceptButRun` loop
never exits, whatever the fuel: `Next` keeps returning `EOF` without moving,
and `EOF` is never a member of the excluded set, so the loop guard stays
true forever. -/
theorem AcceptButRunAux_none_of_eof (invalid : List Char) :
    ∀ (fuel : Nat) (l : Lexer) (n : Nat), l.input.length ≤ l.pos →
      AcceptButRunAux invalid fuel l n = none := by
  intro fuel
  induction fuel with
  | zero => intro l n _; rfl
  | succ k ih =>
      intro l n h
      have hget : l.input[l.pos]? = none := List.getElem?_eq_none h
      simp only [AcceptButRunAux, Next, hget, containsRune_EOF]
      exact ih _ _ (by simpa using h)

/-- C3: evaluation of `AcceptButRun` at the failing input — on the empty
input (cursor at end of input) with excluded set "x" it does not return
within any finite bound on loop iterations: the source loop never
terminates. -/
theorem AcceptButRun_never_returns_at_eof (fuel : Nat) :
    AcceptButRun fuel (New [] []) ['x'] = none :=
  AcceptButRunAux_none_of_eof ['x'] fuel (New [] []) 0 (by decide)

/-- C5 counterexample: on input "ab\ncd", after `NextToken` returns the
token with value "ab\n" starting at offset 0 (a token ending right after
the newline), `LineNumber` reports 1, not 2: `lastPos` records the token's
start position. -/
theorem lineNumber_after_newline_token_counterexample :
    LineNumber (NextToken (New [] ['a', 'b', '\n', 'c', 'd'])
        { type := 2, pos := 0, value := ['a', 'b', '\n'] }) = 1
    ∧ (1 : Nat) ≠ 2 := by decide

/-- C5 amended: `LineNumber` and `ColumnNumber` report the position of the
last returned token's start (its `Pos` field), not its end: on "ab\ncd" the
token "ab\n" at offset 0 yields line 1, column 1, while a token starting at
offset 3 (right after the newline) yields line 2, column 1. -/
theorem line_column_report_token_start :
    LineNumber (NextToken (New [] ['a', 'b', '\n', 'c', 'd'])
        { type := 2, pos := 0, value := ['a', 'b', '\n'] }) = 1
    ∧ ColumnNumber (NextToken (New [] ['a', 'b', '\n', 'c', 'd'])
        { type := 2, pos := 0, value := ['a', 'b', '\n'] }) = 1
    ∧ LineNumber (NextToken (New [] ['a', 'b', '\n', 'c', 'd'])
        { type := 2, pos := 3, value := ['c', 'd'] }) = 2
    ∧ ColumnNumber (NextToken (New [] ['a', 'b', '\n', 'c', 'd'])
        { type := 2, pos := 3, value := ['c', 'd'] }) = 1 := by decide

/-- Gluing adjacent slices: `input[a:b] ++ input[b:c] = input[a:c]`. -/
theorem take_drop_glue (x : List Char) (a b c : Nat)
    (hab : a ≤ b) (hbc : b ≤ c) (hbl : b ≤ x.length) :
    (x.take b).drop a ++ (x.take c).drop b = (x.take c).drop a := by
  have h1 : (x.take c).take b = x.take b := by
    rw [List.take_take, Nat.min_eq_left hbc]
  conv_rhs => rw [← List.take_append_drop b (x.take c), h1]
  rw [List.drop_append_of_le_length]
  rw [List.length_take]
  omega

/-- A chain of `≤` can start lower. -/
theorem chain_le_weaken {a b : Nat} {xs : List Nat} (hab : a ≤ b)
    (h : List.Chain (fun p q => p ≤ q) b xs) :
    List.Chain (fun p q => p ≤ q) a xs := by
  cases h with
  | nil => exact List.Chain.nil
  | cons hd tl => exact List.Chain.cons (le_trans hab hd) tl

/-- Core invariant of a strictly consistent trace: starting from any state
with `base ≤ pos ≤ len(input)` (and, when a backup is permitted,
`base + width ≤ pos`), the trace keeps `base ≤ pos ≤ len(input)`, never
moves `base` backwards, its outputs tile the slice `input[base₀:base_f]`
exactly, and the emitted token positions form a `≤`-chain above `base₀`. -/
theorem run_wf (ops : List Op) : ∀ (canB : Bool) (l : Lexer),
    Wf canB ops = true →
    l.base ≤ l.pos → l.pos ≤ l.input.length →
    (canB = true → l.base + l.width ≤ l.pos) →
    (run l ops).1.input = l.input
    ∧ l.base ≤ (run l ops).1.base
    ∧ (run l ops).1.base ≤ (run l ops).1.pos
    ∧ (run l ops).1.pos ≤ l.input.length
    ∧ ((run l ops).2.map Out.content).join
        = (l.input.take (run l ops).1.base).drop l.base
    ∧ List.Chain (fun a b => a ≤ b) l.base
        ((tokensOf (run l ops).2).map Token.pos) := by
  induction ops with
  | nil =>
      intro canB l _ hbp hpl _
      refine ⟨rfl, le_refl _, hbp, hpl, ?_, List.Chain.nil⟩
      simp only [run, List.map_nil, List.join_nil]
      refine (List.drop_eq_nil_of_le ?_).symm
      simp only [List.length_take]
      omega
  | cons op ops ih =>
      intro canB l hwf hbp hpl hcb
      cases op with
      | next =>
          have hwf2 : Wf true ops = true := hwf
          cases hget : l.input[l.pos]? with
          | none =>
              have hrest := ih true { l with width := 0 } hwf2
                (by simpa using hbp) (by simpa using hpl)
                (by intro _; simpa using hbp)
              have hstep : run l (Op.next :: ops) = run { l with width := 0 } ops := by
                simp [run, step, Next, hget]
              rw [hstep]
              simpa using hrest
          | some c =>
              have hlt : l.pos < l.input.length := by
                by_contra hcon
                rw [List.getElem?_eq_none (by omega)] at hget
                cases hget
              have hrest := ih true { l with width := 1, pos := l.pos + 1 } hwf2
                (by simp; omega) (by simpa using hlt)
                (by intro _; simp; omega)
              have hstep : run l (Op.next :: ops)
                  = run { l with width := 1, pos := l.pos + 1 } ops := by
                simp [run, step, Next, hget]
              rw [hstep]
              simpa using hrest
      | backup =>
          cases canB with
          | false =>
              simp only [Wf, Bool.false_and] at hwf
              exact absurd hwf (by decide)
          | true =>
              have hw := hcb rfl
              have hwf2 : Wf false ops = true := by
                simpa only [Wf, Bool.true_and] using hwf
              have hrest := ih false { l with pos := l.pos - l.width } hwf2
                (by simp; omega) (by simp; omega)
                (by intro hcon; cases hcon)
              have hstep : run l (Op.backup :: ops)
                  = run { l with pos := l.pos - l.width } ops := by
                simp [run, step, Backup]
              rw [hstep]
              simpa using hrest
      | emit t =>
          have hwf2 : Wf false ops = true := hwf
          have hrest := ih false { l with base := l.pos } hwf2
            (by simp) (by simpa using hpl)
            (by intro hcon; cases hcon)
          obtain ⟨r1, r2, r3, r4, r5, r6⟩ := hrest
          have hstep1 : (run l (Op.emit t :: ops)).1 = (run { l with base := l.pos } ops).1 := by
            simp [run, step]
          have hstep2 : (run l (Op.emit t :: ops)).2
              = Out.tok { type := t, pos := l.base, value := Value l }
                  :: (run { l with base := l.pos } ops).2 := by
            simp [run, step]
          rw [hstep1, hstep2]
          have r2' : l.pos ≤ (run { l with base := l.pos } ops).1.base := by
            simpa using r2
          have r4' : (run { l with base := l.pos } ops).1.pos ≤ l.input.length := by
            simpa using r4
          have r5' : ((run { l with base := l.pos } ops).2.map Out.content).join
              = (l.input.take (run { l with base := l.pos } ops).1.base).drop l.pos := by
            simpa using r5
          have r6' : List.Chain (fun a b => a ≤ b) l.pos
              ((tokensOf (run { l with base := l.pos } ops).2).map Token.pos) := by
            simpa using r6
          refine ⟨by simpa using r1, le_trans hbp r2', r3, r4', ?_, ?_⟩
          · simp only [List.map_cons, List.join_cons, Out.content, r5', Value]
            exact take_drop_glue l.input l.base l.pos _ hbp r2' hpl
          · simp only [tokensOf, List.filterMap_cons, Out.token, List.map_cons]
            exact List.Chain.cons (le_refl _) (chain_le_weaken hbp r6')
      | ignore =>
          have hwf2 : Wf false ops = true := hwf
          have hrest := ih false { l with base := l.pos } hwf2
            (by simp) (by simpa using hpl)
            (by intro hcon; cases hcon)
          obtain ⟨r1, r2, r3, r4, r5, r6⟩ := hrest
          have hstep1 : (run l (Op.ignore :: ops)).1 = (run { l with base := l.pos } ops).1 := by
            simp [run, step]
          have hstep2 : (run l (Op.ignore :: ops)).2
              = Out.skip (Value l) :: (run { l with base := l.pos } ops).2 := by
            simp [run, step]
          rw [hstep1, hstep2]
          have r2' : l.pos ≤ (run { l with base := l.pos } ops).1.base := by
            simpa using r2
          have r4' : (run { l with base := l.pos } ops).1.pos ≤ l.input.length := by
            simpa using r4
          have r5' : ((run { l with base := l.pos } ops).2.map Out.content).join
              = (l.input.take (run { l with base := l.pos } ops).1.base).drop l.pos := by
            simpa using r5
          have r6' : List.Chain (fun a b => a ≤ b) l.pos
              ((tokensOf (run { l with base := l.pos } ops).2).map Token.pos) := by
            simpa using r6
          refine ⟨by simpa using r1, le_trans hbp r2', r3, r4', ?_, ?_⟩
          · simp only [List.map_cons, List.join_cons, Out.content, r5', Value]
            exact take_drop_glue l.input l.base l.pos _ hbp r2' hpl
          · simp only [tokensOf, List.filterMap_cons, Out.skipped, Out.token]
            exact chain_le_weaken hbp r6'
      | inc n =>
          simp only [Wf] at hwf
          exact absurd hwf (by decide)
      | dec n =>
          simp only [Wf] at hwf
          exact absurd hwf (by decide)

/-- C1 counterexample, refuting the claim as stated in two ways on traces
whose backups satisfy "at most once per preceding next".
(1) On input "ab", the trace `next; emit` emits "a" and ignores nothing, yet
"a" is not the input with the ignored spans removed — the unconsumed "b"
belongs to no emitted token and no ignored span.
(2) On input "a", the trace `next; emit; backup; ignore; next; emit` (its
single backup has a preceding next) emits "a" twice: the concatenation "aa"
is not the input with the (empty) ignored spans removed, and the character
is part of two emitted tokens. -/
theorem emitted_values_counterexample :
    (WeakWf 0 [Op.next, Op.emit 2] = true
      ∧ (tokensOf (run (New [] ['a', 'b']) [Op.next, Op.emit 2]).2).map Token.value
          = [['a']]
      ∧ skipsOf (run (New [] ['a', 'b']) [Op.next, Op.emit 2]).2 = []
      ∧ (['a'] : List Char) ≠ ['a', 'b'])
    ∧ (WeakWf 0 [Op.next, Op.emit 2, Op.backup, Op.ignore, Op.next, Op.emit 2] = true
      ∧ (tokensOf (run (New [] ['a'])
            [Op.next, Op.emit 2, Op.backup, Op.ignore, Op.next, Op.emit 2]).2).map
            Token.value
          = [['a'], ['a']]
      ∧ (skipsOf (run (New [] ['a'])
            [Op.next, Op.emit 2, Op.backup, Op.ignore, Op.next, Op.emit 2]).2).join
          = []
      ∧ (['a', 'a'] : List Char) ≠ ['a']) := by decide

/-- C1 amended: over traces of `next`/`backup`/`emit`/`ignore` in which
every `backup` immediately follows a `next`, the emitted token values and
the ignored spans, in order, exactly tile the consumed prefix
`input[0:tokenStart_final]` — every character of that prefix belongs to
exactly one emitted token or ignored span, and the concatenation of the
emitted values is that prefix with the ignored spans removed. -/
theorem emitted_and_ignored_tile_consumed (inp : List Char) (ops : List Op)
    (h : Wf false ops = true) :
    ((run (New [] inp) ops).2.map Out.content).join
      = inp.take (run (New [] inp) ops).1.base := by
  have hmain := run_wf ops false (New [] inp) h
    (by simp [New]) (by simp [New]) (by intro hcon; cases hcon)
  have h5 := hmain.2.2.2.2.1
  simpa [New] using h5

/-- Witness for the amended C1: on input "ab", the trace
`next; emit; next; ignore` tiles the whole consumed input. -/
theorem emitted_and_ignored_tile_consumed_witness :
    Wf false [Op.next, Op.emit 2, Op.next, Op.ignore] = true
    ∧ ((run (New [] ['a', 'b']) [Op.next, Op.emit 2, Op.next, Op.ignore]).2.map
          Out.content).join
        = (['a', 'b'] : List Char).take
            (run (New [] ['a', 'b']) [Op.next, Op.emit 2, Op.next, Op.ignore]).1.base :=
  ⟨by decide,
   emitted_and_ignored_tile_consumed ['a', 'b']
     [Op.next, Op.emit 2, Op.next, Op.ignore] (by decide)⟩

/-- C4 counterexample, refuting the claim as stated for traces of public
scanner operations.
(1) Using `Dec`: on input "abcd", the trace
`next; next; ignore; next; emit; dec 2; ignore; emit` emits tokens at
positions 2 then 1 — strictly decreasing.
(2) Even without `Inc`/`Dec`, with backups merely "at most once per
preceding next": on input "abc", the trace
`next; ignore; next; next; backup; backup; emit; backup; ignore; emit`
emits positions 1 then 0. -/
theorem emit_positions_decrease_counterexample :
    (WeakWf 0 [Op.next, Op.next, Op.ignore, Op.next, Op.emit 5,
        Op.dec 2, Op.ignore, Op.emit 5] = true
      ∧ (tokensOf (run (New [] ['a', 'b', 'c', 'd'])
            [Op.next, Op.next, Op.ignore, Op.next, Op.emit 5,
             Op.dec 2, Op.ignore, Op.emit 5]).2).map Token.pos = [2, 1]
      ∧ ¬ List.Pairwise (fun a b => a ≤ b) ([2, 1] : List Nat))
    ∧ (WeakWf 0 [Op.next, Op.ignore, Op.next, Op.next, Op.backup, Op.backup,
        Op.emit 5, Op.backup, Op.ignore, Op.emit 5] = true
      ∧ (tokensOf (run (New [] ['a', 'b', 'c'])
            [Op.next, Op.ignore, Op.next, Op.next, Op.backup, Op.backup,
             Op.emit 5, Op.backup, Op.ignore, Op.emit 5]).2).map Token.pos = [1, 0]
      ∧ ¬ List.Pairwise (fun a b => a ≤ b) ([1, 0] : List Nat)) := by decide

/-- C4 amended: over traces of `next`/`backup`/`emit`/`ignore` in which
every `backup` immediately follows a `next` (and the raw cursor helpers
`Inc`/`Dec` are not used), the `Pos` fields of the emitted tokens are
monotonically non-decreasing in emission order. -/
theorem emit_positions_monotone (inp : List Char) (ops : List Op)
    (h : Wf false ops = true) :
    List.Pairwise (fun a b => a ≤ b)
      ((tokensOf (run (New [] inp) ops).2).map Token.pos) := by
  have hmain := run_wf ops false (New [] inp) h
    (by simp [New]) (by simp [New]) (by intro hcon; cases hcon)
  have h6 := hmain.2.2.2.2.2
  have h6' : List.Chain (fun a b => a ≤ b) 0
      ((tokensOf (run (New [] inp) ops).2).map Token.pos) := by
    simpa [New] using h6
  exact (List.chain_iff_pairwise.mp h6').of_cons

/-- Witness for the amended C4 on the trace `next; emit` over "ab". -/
theorem emit_positions_monotone_witness :
    Wf false [Op.next, Op.emit 2] = true
    ∧ List.Pairwise (fun a b => a ≤ b)
        ((tokensOf (run (New [] ['a', 'b']) [Op.next, Op.emit 2]).2).map Token.pos) :=
  ⟨by decide, emit_positions_monotone ['a', 'b'] [Op.next, Op.emit 2] (by decide)⟩

end Lex
